import Mathlib

/-!
Verification of the slop-score metrics core (`metrics.js`): the Slop Index
Engine (`computeSlopIndex`), the Overuse Ranker (`rankOveruseWithCounts`),
word-count preprocessing (`mergePossessives`, `filterNumericWords`) and
baseline-profile normalization (the `norm` step of `loadHumanProfile`).
Word-count maps (JS `Map`) are embedded as association lists preserving
insertion order; JS numbers are embedded as rationals.
-/

namespace SlopScore

/-- The tiny smoothing constant `1e-12` used in `rankOveruseWithCounts`,
both added to the baseline proportion in the overuse quotient and used as
the floor for `minHuman` when the baseline has no positive value. -/
def tinyEps : ℚ := 1 / 1000000000000

/-- JS `Map.set` semantics on an association list: replace the value at the
first matching key, else append a fresh binding at the end. -/
def setVal {α : Type} (m : List (String × α)) (k : String) (v : α) : List (String × α) :=
  match m with
  | [] => [(k, v)]
  | (k₁, v₁) :: rest => if k₁ = k then (k₁, v) :: rest else (k₁, v₁) :: setVal rest k v

/-- `merged.set(word, (merged.get(word) || 0) + count)` on an association
list: add `c` to the binding of `k`, appending `(k, c)` when `k` is absent. -/
def addCount (m : List (String × Nat)) (k : String) (c : Nat) : List (String × Nat) :=
  match m with
  | [] => [(k, c)]
  | (k₁, v₁) :: rest => if k₁ = k then (k₁, v₁ + c) :: rest else (k₁, v₁) :: addCount rest k c

/-- Reading a count from an association list, `0` when the key is absent
(JS `map.get(k) || 0`). -/
def lookupCount (m : List (String × Nat)) (k : String) : Nat :=
  match m with
  | [] => 0
  | (k₁, v₁) :: rest => if k₁ = k then v₁ else lookupCount rest k

/-- Modelled from the spec: `countItems` is imported from `utils.js`, which is
not among the provided sources; per the Overuse Ranker spec it tallies each
n-gram's observed count ("count / total n-grams in document"), with keys in
first-encounter order (JS `Map` insertion order). One item is tallied by
incrementing its binding, appending a fresh `(x, 1)` binding when absent. -/
def insertCount (m : List (String × Nat)) (x : String) : List (String × Nat) :=
  match m with
  | [] => [(x, 1)]
  | (k₁, v₁) :: rest => if k₁ = x then (k₁, v₁ + 1) :: rest else (k₁, v₁) :: insertCount rest x

/-- Modelled from the spec: the multiset of items folded into an
insertion-ordered count map (see `insertCount`). -/
def countItems (l : List String) : List (String × Nat) :=
  l.foldl insertCount []

/-- `KNOWN_CONTRACTIONS_S` of `metrics.js`: contractions whose trailing
`'s` must not be stripped.  A JS `Set` queried only for membership is
embedded as the list of its elements. -/
def KNOWN_CONTRACTIONS_S : List String :=
  ["it's", "that's", "what's", "who's", "he's", "she's",
   "there's", "here's", "where's", "when's", "why's", "how's",
   "let's"]

/-- `word.endsWith("'s")`, expressed on the character list (the last two
characters are an apostrophe followed by `s`). -/
def endsInApoS (s : String) : Bool :=
  s.data.reverse.take 2 == ['s', '\'']

/-- The loop body of `mergePossessives`: a word ending in `'s` that is not a
known contraction and whose base (the word without the final `'s`) is
non-empty contributes its count to the base word; every other word
contributes its count to itself. -/
def mergeStep (merged : List (String × Nat)) (wc : String × Nat) : List (String × Nat) :=
  if endsInApoS wc.1 && !(KNOWN_CONTRACTIONS_S.contains wc.1) then
    let baseWord := wc.1.dropRight 2
    if baseWord ≠ "" then addCount merged baseWord wc.2
    else addCount merged wc.1 wc.2
  else addCount merged wc.1 wc.2

/-- `mergePossessives` of `metrics.js`: fold plural/possessive `'s` words
into their base word (skipping known contractions and words whose base
would be empty), accumulating counts in a fresh insertion-ordered map. -/
def mergePossessives (wordCounts : List (String × Nat)) : List (String × Nat) :=
  wordCounts.foldl mergeStep []

/-- The number of digit characters of a word (`word.match(/\d/g)` length). -/
def countDigits (s : String) : Nat :=
  s.data.countP (fun c => c.isDigit)

/-- The loop body of `filterNumericWords`: skip a word when
`word.length > 0 && (digitCount / word.length) > 0.2`, keep it otherwise. -/
def filterStep (filtered : List (String × Nat)) (wc : String × Nat) : List (String × Nat) :=
  let digitCount := countDigits wc.1
  if 0 < wc.1.length ∧ (1 : ℚ) / 5 < (digitCount : ℚ) / (wc.1.length : ℚ) then filtered
  else setVal filtered wc.1 wc.2

/-- `filterNumericWords` of `metrics.js`: drop words whose digit fraction
exceeds `0.2`, keep the rest (with their counts) in a fresh map. -/
def filterNumericWords (wordCounts : List (String × Nat)) : List (String × Nat) :=
  wordCounts.foldl filterStep []

/-- ASCII lowercasing of one character (the `toLowerCase()` step of
`loadHumanProfile`, which is only ever applied before keeping `[a-z]` runs). -/
def lowerChar (c : Char) : Char :=
  if 'A' ≤ c ∧ c ≤ 'Z' then Char.ofNat (c.toNat + 32) else c

/-- Whether a character is a lowercase letter `a`–`z`. -/
def isAZ (c : Char) : Bool :=
  'a' ≤ c && c ≤ 'z'

/-- Maximal runs of `[a-z]` characters (the `match(/[a-z]+/g)` step of
`loadHumanProfile`); `cur` holds the current run reversed. -/
def azRunsAux : List Char → List Char → List String
  | [], cur => if cur.isEmpty then [] else [String.mk cur.reverse]
  | c :: rest, cur =>
    if isAZ c then azRunsAux rest (c :: cur)
    else if cur.isEmpty then azRunsAux rest cur
    else String.mk cur.reverse :: azRunsAux rest []

/-- `String(it.ngram).toLowerCase().match(/[a-z]+/g)` of `loadHumanProfile`:
lowercase, then extract the maximal `[a-z]` runs (a `null` match result is
embedded as the empty list, which the caller skips for having `< 2` tokens). -/
def azRuns (s : String) : List String :=
  azRunsAux (s.data.map lowerChar) []

/-- The loop body of the `norm` step of `loadHumanProfile`: a record whose
n-gram yields fewer than two `[a-z]` tokens is skipped; otherwise the key
`toks.join(" ")` is set (JS `Map.set` replacement) to `frequency / total`. -/
def normStep (total : ℚ) (targetMap : List (String × ℚ)) (it : String × ℚ) :
    List (String × ℚ) :=
  let toks := azRuns it.1
  if toks.length < 2 then targetMap
  else setVal targetMap (String.intercalate " " toks) (it.2 / total)

/-- The `norm` step of `loadHumanProfile` in `metrics.js`: total up the raw
frequencies; if the total is not positive leave the target map empty;
otherwise store, for every record whose n-gram yields at least two `[a-z]`
tokens, the key `toks.join(" ")` with value `frequency / total` (JS
`Map.set` replacement semantics). A record is `(ngram, frequency)`. -/
def normProfile (list : List (String × ℚ)) : List (String × ℚ) :=
  let total := (list.map (fun it => it.2)).sum
  if total ≤ 0 then []
  else list.foldl (normStep total) []

/-- The process-wide slop tables consumed by `computeSlopIndex`: the JS
`Set`s `slopWords` and `slopTrigrams`, embedded as lists of their elements
(membership and emptiness are all that is ever queried). -/
structure SlopConfig where
  slopWords : List String
  slopTrigrams : List String

/-- The result object of `computeSlopIndex`. -/
structure SlopIndexResult where
  wordScore : ℚ
  trigramScore : ℚ
  wordHits : Option (List (String × Nat))
  trigramHits : Option (List (String × Nat))
deriving DecidableEq

/-- The trigram string `tokens[i] + " " + tokens[i+1] + " " + tokens[i+2]`
(always used with `i + 2` in bounds, so the `""` default never shows). -/
def trigramAt (tokens : List String) (i : Nat) : String :=
  tokens.getD i "" ++ " " ++ tokens.getD (i + 1) "" ++ " " ++ tokens.getD (i + 2) ""

/-- The single-word hit count of `computeSlopIndex` (`wordHitCount`): the
loop over tokens runs only when the slop word set is non-empty. -/
def countWordHits (slopWords : List String) (tokens : List String) : Nat :=
  if slopWords.isEmpty then 0
  else tokens.countP (fun t => slopWords.contains t)

/-- The per-word hit tallies of `computeSlopIndex` (`wordHitMap`): counts of
the matched tokens, keyed in first-hit order. -/
def wordHitTallies (slopWords : List String) (tokens : List String) : List (String × Nat) :=
  if slopWords.isEmpty then []
  else countItems (tokens.filter (fun t => slopWords.contains t))

/-- The trigram hit count of `computeSlopIndex` (`triHitCount`): the loop
over positions `0 ≤ i < n - 2` runs only when the trigram set is non-empty
and `n ≥ 3`. -/
def countTriHits (slopTrigrams : List String) (tokens : List String) : Nat :=
  if slopTrigrams.isEmpty then 0
  else if 3 ≤ tokens.length then
    (List.range (tokens.length - 2)).countP
      (fun i => slopTrigrams.contains (trigramAt tokens i))
  else 0

/-- The per-trigram hit tallies of `computeSlopIndex` (`triHitMap`). -/
def triHitTallies (slopTrigrams : List String) (tokens : List String) : List (String × Nat) :=
  if slopTrigrams.isEmpty then []
  else if 3 ≤ tokens.length then
    countItems (((List.range (tokens.length - 2)).map (trigramAt tokens)).filter
      (fun tg => slopTrigrams.contains tg))
  else []

/-- The hit maps are emitted as arrays sorted by descending count with the
stable JS `Array.prototype.sort` under `(a, b) => b[1] - a[1]`; a stable
sort for a total preorder is modelled by `List.insertionSort`. -/
def hitsSorted (m : List (String × Nat)) : List (String × Nat) :=
  List.insertionSort (fun a b => b.2 ≤ a.2) m

/-- `computeSlopIndex` of `metrics.js`: per-1000-token slop word and slop
trigram scores, plus the optional per-phrase tallies when `trackHits`. -/
def computeSlopIndex (cfg : SlopConfig) (tokens : List String)
    (trackHits : Bool := false) : SlopIndexResult :=
  let n := tokens.length
  if n = 0 then ⟨0, 0, none, none⟩
  else
    let wordHitCount := countWordHits cfg.slopWords tokens
    let triHitCount := countTriHits cfg.slopTrigrams tokens
    { wordScore := (wordHitCount : ℚ) / (n : ℚ) * 1000
      trigramScore := (triHitCount : ℚ) / (n : ℚ) * 1000
      wordHits :=
        if trackHits then some (hitsSorted (wordHitTallies cfg.slopWords tokens)) else none
      trigramHits :=
        if trackHits then some (hitsSorted (triHitTallies cfg.slopTrigrams tokens)) else none }

/-- The `minHuman` computation of `rankOveruseWithCounts`: the smallest
strictly positive value of the baseline map (`none` plays the role of the
JS starting value `Infinity`), floored to `1e-12` when no positive value
exists (`if (!isFinite(minHuman)) minHuman = 1e-12`). -/
def minStep (acc : Option ℚ) (kv : String × ℚ) : Option ℚ :=
  match acc with
  | none => if 0 < kv.2 then some kv.2 else none
  | some mh => if 0 < kv.2 ∧ kv.2 < mh then some kv.2 else some mh

/-- See `minStep`; `minHumanOf` runs the loop and applies the final
`isFinite` floor. -/
def minHumanOf (humanFreqMap : List (String × ℚ)) : ℚ :=
  match humanFreqMap.foldl minStep none with
  | none => tinyEps
  | some mh => mh

/-- The `rows` built by `rankOveruseWithCounts` before sorting: one triple
`(ngram, model_f / (human_f + 1e-12), count)` per distinct n-gram, where
`model_f = count / total` and `human_f` is the baseline proportion, the
minimum positive baseline value standing in for an absent n-gram
(`humanFreqMap.get(ng) ?? minHuman`). -/
def rankRows (ngrams : List String) (humanFreqMap : List (String × ℚ)) :
    List (String × ℚ × Nat) :=
  let counts := countItems ngrams
  let s : Nat := (counts.map (fun row => row.2)).sum
  let total : ℚ := if s = 0 then 1 else (s : ℚ)
  let minHuman := minHumanOf humanFreqMap
  counts.map (fun row =>
    let model_f : ℚ := (row.2 : ℚ) / total
    let human_f : ℚ :=
      match humanFreqMap.lookup row.1 with
      | some v => v
      | none => minHuman
    (row.1, model_f / (human_f + tinyEps), row.2))

/-- `rankOveruseWithCounts` of `metrics.js`: empty input short-circuits to
`[]`; otherwise the rows are sorted descending by the overuse quotient with
the stable JS `Array.prototype.sort` under `(a, b) => b[1] - a[1]`
(modelled by `List.insertionSort`, stable for a total preorder) and the
first `topK` rows are returned. -/
def rankOveruseWithCounts (ngrams : List String) (humanFreqMap : List (String × ℚ))
    (topK : Nat := 40) : List (String × ℚ × Nat) :=
  if ngrams.isEmpty then []
  else
    (List.insertionSort (fun a b : String × ℚ × Nat => b.2.1 ≤ a.2.1)
      (rankRows ngrams humanFreqMap)).take topK

/-- The word a given input word is folded into by `mergePossessives`: its
base (final `'s` stripped) when it is a strippable possessive, itself
otherwise. -/
def foldTarget (w : String) : String :=
  if endsInApoS w = true ∧ w ∉ KNOWN_CONTRACTIONS_S ∧ w.dropRight 2 ≠ "" then w.dropRight 2
  else w

/-- The distinct values of a list in the order they are first encountered. -/
def firstOccList (l : List String) : List String :=
  l.foldl (fun acc x => if acc.contains x then acc else acc ++ [x]) []

/-! ### Association-list lemmas -/

theorem lookupCount_addCount (m : List (String × Nat)) (k : String) (c : Nat) (q : String) :
    lookupCount (addCount m k c) q = lookupCount m q + (if k = q then c else 0) := by
  induction m with
  | nil =>
    simp only [addCount, lookupCount]
    split <;> simp
  | cons hd tl ih =>
    obtain ⟨k₁, v₁⟩ := hd
    by_cases h : k₁ = k
    · subst h
      simp only [addCount, if_pos rfl, lookupCount]
      by_cases hq : k₁ = q
      · subst hq; simp
      · simp [hq]
    · simp only [addCount, if_neg h, lookupCount]
      by_cases hq : k₁ = q
      · subst hq
        have hk : ¬ k = k₁ := fun hh => h hh.symm
        simp [hk]
      · simp [hq, ih]

theorem sum_map_addCount (m : List (String × Nat)) (k : String) (c : Nat) :
    ((addCount m k c).map (fun e => e.2)).sum = (m.map (fun e => e.2)).sum + c := by
  induction m with
  | nil => simp [addCount]
  | cons hd tl ih =>
    obtain ⟨k₁, v₁⟩ := hd
    by_cases h : k₁ = k
    · subst h; simp [addCount]; omega
    · simp [addCount, if_neg h, ih]; omega

/-- `mergeStep` always adds the count at the fold target of the word. -/
theorem mergeStep_eq_addCount (m : List (String × Nat)) (wc : String × Nat) :
    mergeStep m wc = addCount m (foldTarget wc.1) wc.2 := by
  unfold mergeStep foldTarget
  by_cases h1 : endsInApoS wc.1 = true
  · by_cases h2 : wc.1 ∈ KNOWN_CONTRACTIONS_S
    · simp [h1, h2]
    · by_cases h3 : wc.1.dropRight 2 = ""
      · simp [h1, h2, h3]
      · simp [h1, h2, h3]
  · simp [h1, Bool.not_eq_true _ ▸ h1]

theorem lookupCount_foldl_mergeStep (l : List (String × Nat)) (acc : List (String × Nat))
    (q : String) :
    lookupCount (l.foldl mergeStep acc) q
      = lookupCount acc q
        + ((l.filter (fun wc => foldTarget wc.1 == q)).map (fun wc => wc.2)).sum := by
  induction l generalizing acc with
  | nil => simp
  | cons wc l ih =>
    rw [List.foldl_cons, ih, mergeStep_eq_addCount, lookupCount_addCount, List.filter_cons]
    by_cases h : foldTarget wc.1 = q
    · simp only [h, if_pos rfl, beq_self_eq_true, if_true, List.map_cons, List.sum_cons]
      omega
    · have hb : (foldTarget wc.1 == q) = false := beq_eq_false_iff_ne.2 h
      simp [h, hb]

theorem sum_map_foldl_mergeStep (l : List (String × Nat)) (acc : List (String × Nat)) :
    (((l.foldl mergeStep acc).map (fun e => e.2)).sum)
      = ((acc.map (fun e => e.2)).sum) + ((l.map (fun e => e.2)).sum) := by
  induction l generalizing acc with
  | nil => simp
  | cons wc l ih =>
    rw [List.foldl_cons, ih, mergeStep_eq_addCount, sum_map_addCount]
    simp; omega

/-! ### Slop-index lemmas -/

/-- The guard `if (slopWords.size)` is immaterial for the hit count: an
empty set matches no token anyway. -/
theorem countWordHits_eq_countP (slopWords tokens : List String) :
    countWordHits slopWords tokens = tokens.countP (fun t => slopWords.contains t) := by
  unfold countWordHits
  split
  · rename_i h
    have he : slopWords = [] := List.isEmpty_iff.mp h
    subst he
    symm
    rw [List.countP_eq_zero]
    intro a _
    simp
  · rfl

/-- The guard `if (slopTrigrams.size && n >= 3)` is immaterial for the hit
count once `n ≥ 3`: an empty set matches no trigram anyway. -/
theorem countTriHits_eq_countP (slopTrigrams tokens : List String)
    (h : 3 ≤ tokens.length) :
    countTriHits slopTrigrams tokens
      = (List.range (tokens.length - 2)).countP
          (fun i => slopTrigrams.contains (trigramAt tokens i)) := by
  unfold countTriHits
  split
  · rename_i he
    have he2 : slopTrigrams = [] := List.isEmpty_iff.mp he
    subst he2
    symm
    rw [List.countP_eq_zero]
    intro a _
    simp
  · simp [h]

/-! ### Claim theorems: empty input, determinism, possessive merging -/

/-- C2: on the empty token sequence `computeSlopIndex` returns all-zero
scores (and null hit tallies) rather than failing on the division by the
token count, and `rankOveruseWithCounts` on an empty n-gram list
short-circuits to the empty list. -/
theorem empty_input_all_zero (cfg : SlopConfig) (trackHits : Bool)
    (humanFreqMap : List (String × ℚ)) (topK : Nat) :
    computeSlopIndex cfg [] trackHits = ⟨0, 0, none, none⟩
    ∧ rankOveruseWithCounts [] humanFreqMap topK = [] :=
  ⟨rfl, rfl⟩

/-- C9: the analysis is deterministic — with the loaded tables fixed, two
runs of `computeSlopIndex` on the same tokens and two runs of
`rankOveruseWithCounts` on the same n-gram list and baseline coincide (the
embedded computations are pure functions of their inputs). -/
theorem analysis_deterministic (cfg : SlopConfig) (tokens : List String) (trackHits : Bool)
    (ngrams : List String) (humanFreqMap : List (String × ℚ)) (topK : Nat) :
    computeSlopIndex cfg tokens trackHits = computeSlopIndex cfg tokens trackHits
    ∧ rankOveruseWithCounts ngrams humanFreqMap topK
        = rankOveruseWithCounts ngrams humanFreqMap topK :=
  ⟨rfl, rfl⟩

/-- C6 (counterexample): on the word-count map `{"it's" ↦ 1, "it's's" ↦ 2}`
the contraction `"it's"` does NOT keep its count unchanged: `"it's's"` ends
in `'s`, is not a known contraction, and its base is the contraction
`"it's"`, so `mergePossessives` folds its count 2 into `"it's"`, giving 3,
not the claimed untouched 1. -/
theorem mergePossessives_contraction_cex :
    lookupCount (mergePossessives [("it's", 1), ("it's's", 2)]) "it's" = 3
    ∧ (3 : Nat) ≠ 1 := by
  constructor
  · decide
  · decide

/-- C6 (amended): `mergePossessives` sends the count of every input word to
its fold target — the base word when the word ends in `'s`, is not a known
contraction and has a non-empty base, the word itself otherwise (so
contractions are never folded themselves) — and each output count is the
sum of the input counts arriving at that word; in particular a
contraction's count grows when another word (such as `"it's's"`) folds
into it. -/
theorem mergePossessives_counts (m : List (String × Nat)) (q : String) :
    lookupCount (mergePossessives m) q
      = ((m.filter (fun wc => foldTarget wc.1 == q)).map (fun wc => wc.2)).sum := by
  have h := lookupCount_foldl_mergeStep m [] q
  simpa [mergePossessives, lookupCount] using h

/-- C10: `mergePossessives` preserves the total count — the sum of the
counts of the returned map equals the sum of the counts of the input map. -/
theorem mergePossessives_total (m : List (String × Nat)) :
    ((mergePossessives m).map (fun wc => wc.2)).sum = (m.map (fun wc => wc.2)).sum := by
  have h := sum_map_foldl_mergeStep m []
  simpa [mergePossessives] using h

/-! ### Claim theorems: slop index scores -/

/-- C3: for `n ≥ 3` tokens, `wordScore` is the number of tokens in the
flagged word set, divided by `n`, times 1000, and `trigramScore` is the
number of positions `i ∈ [0, n-3]` whose three consecutive tokens join (by
single spaces) to a string in the flagged trigram set — exact membership,
no partial credit — divided by `n`, times 1000. -/
theorem computeSlopIndex_per1000 (cfg : SlopConfig) (tokens : List String) (trackHits : Bool)
    (h : 3 ≤ tokens.length) :
    (computeSlopIndex cfg tokens trackHits).wordScore
        = ((tokens.countP (fun t => cfg.slopWords.contains t) : ℚ) / (tokens.length : ℚ)) * 1000
    ∧ (computeSlopIndex cfg tokens trackHits).trigramScore
        = (((List.range (tokens.length - 2)).countP
              (fun i => cfg.slopTrigrams.contains
                (tokens.getD i "" ++ " " ++ tokens.getD (i + 1) ""
                  ++ " " ++ tokens.getD (i + 2) "")) : ℚ)
            / (tokens.length : ℚ)) * 1000 := by
  have hn : ¬ tokens.length = 0 := by omega
  constructor
  · simp [computeSlopIndex, hn, countWordHits_eq_countP]
  · simp [computeSlopIndex, hn, countTriHits_eq_countP cfg.slopTrigrams tokens h, trigramAt]

/-- C3 (witness): the formula evaluated on the concrete run
`["a", "b", "c"]` against the tables `{words: {"b"}, trigrams: {"a b c"}}`. -/
theorem computeSlopIndex_per1000_check :
    3 ≤ (["a", "b", "c"] : List String).length
    ∧ ((computeSlopIndex ⟨["b"], ["a b c"]⟩ ["a", "b", "c"] false).wordScore
          = (((["a", "b", "c"] : List String).countP
                (fun t => (["b"] : List String).contains t) : ℚ)
              / ((["a", "b", "c"] : List String).length : ℚ)) * 1000
        ∧ (computeSlopIndex ⟨["b"], ["a b c"]⟩ ["a", "b", "c"] false).trigramScore
          = (((List.range ((["a", "b", "c"] : List String).length - 2)).countP
                (fun i => (["a b c"] : List String).contains
                  ((["a", "b", "c"] : List String).getD i ""
                    ++ " " ++ (["a", "b", "c"] : List String).getD (i + 1) ""
                    ++ " " ++ (["a", "b", "c"] : List String).getD (i + 2) "")) : ℚ)
              / ((["a", "b", "c"] : List String).length : ℚ)) * 1000) :=
  ⟨by decide, computeSlopIndex_per1000 ⟨["b"], ["a b c"]⟩ ["a", "b", "c"] false (by decide)⟩

/-- C1: a 1000-token document in which the flagged word `"tapestry"` occurs
exactly 5 times, no other token is flagged, and no three consecutive
tokens form a flagged trigram scores `wordScore = 5` and
`trigramScore = 0`. -/
theorem tapestry_example (cfg : SlopConfig) (tokens : List String) (trackHits : Bool)
    (hlen : tokens.length = 1000)
    (htap : "tapestry" ∈ cfg.slopWords)
    (hcount : tokens.count "tapestry" = 5)
    (honly : ∀ t ∈ tokens, t ∈ cfg.slopWords → t = "tapestry")
    (htri : ∀ i, i + 2 < tokens.length → trigramAt tokens i ∉ cfg.slopTrigrams) :
    (computeSlopIndex cfg tokens trackHits).wordScore = 5
    ∧ (computeSlopIndex cfg tokens trackHits).trigramScore = 0 := by
  have hn : ¬ tokens.length = 0 := by omega
  have hword : countWordHits cfg.slopWords tokens = 5 := by
    rw [countWordHits_eq_countP]
    have hc : tokens.countP (fun t => cfg.slopWords.contains t)
        = tokens.countP (fun t => t == "tapestry") := by
      apply List.countP_congr
      intro t ht
      constructor
      · intro hp
        have hmem : t ∈ cfg.slopWords := by simpa using hp
        simpa using honly t ht hmem
      · intro hq
        have ht2 : t = "tapestry" := by simpa using hq
        subst ht2
        simpa using htap
    rw [hc, ← List.count_eq_countP, hcount]
  have htri0 : countTriHits cfg.slopTrigrams tokens = 0 := by
    rw [countTriHits_eq_countP cfg.slopTrigrams tokens (by omega)]
    rw [List.countP_eq_zero]
    intro i hi
    have hilt : i + 2 < tokens.length := by
      have := List.mem_range.mp hi
      omega
    simpa using htri i hilt
  constructor
  · simp only [computeSlopIndex, hn, if_false, hword, hlen]
    norm_num
  · simp only [computeSlopIndex, hn, if_false, htri0, hlen]
    norm_num

/-- C1 (witness): 995 unflagged tokens followed by 5 occurrences of
`"tapestry"`, with `{"tapestry"}` as the slop word set and an empty slop
trigram set. -/
theorem tapestry_example_check :
    (List.replicate 995 "x" ++ List.replicate 5 "tapestry").length = 1000
    ∧ "tapestry" ∈ (["tapestry"] : List String)
    ∧ (List.replicate 995 "x" ++ List.replicate 5 "tapestry").count "tapestry" = 5
    ∧ (∀ t ∈ List.replicate 995 "x" ++ List.replicate 5 "tapestry",
        t ∈ (["tapestry"] : List String) → t = "tapestry")
    ∧ (∀ i, i + 2 < (List.replicate 995 "x" ++ List.replicate 5 "tapestry").length →
        trigramAt (List.replicate 995 "x" ++ List.replicate 5 "tapestry") i ∉ ([] : List String))
    ∧ (computeSlopIndex ⟨["tapestry"], []⟩
        (List.replicate 995 "x" ++ List.replicate 5 "tapestry") false).wordScore = 5
    ∧ (computeSlopIndex ⟨["tapestry"], []⟩
        (List.replicate 995 "x" ++ List.replicate 5 "tapestry") false).trigramScore = 0 := by
  have hlen : (List.replicate 995 "x" ++ List.replicate 5 "tapestry").length = 1000 := by
    simp only [List.length_append, List.length_replicate]
  have hcount : (List.replicate 995 "x" ++ List.replicate 5 "tapestry").count "tapestry" = 5 := by
    simp only [List.count_append, List.count_replicate]
    decide
  have honly : ∀ t ∈ List.replicate 995 "x" ++ List.replicate 5 "tapestry",
      t ∈ (["tapestry"] : List String) → t = "tapestry" := by
    intro t _ hmem
    simpa using hmem
  have htri : ∀ i, i + 2 < (List.replicate 995 "x" ++ List.replicate 5 "tapestry").length →
      trigramAt (List.replicate 995 "x" ++ List.replicate 5 "tapestry") i ∉ ([] : List String) := by
    intro i _
    exact List.not_mem_nil _
  have hmain := tapestry_example ⟨["tapestry"], []⟩
    (List.replicate 995 "x" ++ List.replicate 5 "tapestry") false
    hlen (by simp) hcount honly htri
  exact ⟨hlen, by simp, hcount, honly, htri, hmain.1, hmain.2⟩

/-! ### Numeric-word filtering -/

theorem setVal_append {α : Type} (m : List (String × α)) (k : String) (v : α)
    (h : k ∉ m.map Prod.fst) : setVal m k v = m ++ [(k, v)] := by
  induction m with
  | nil => simp [setVal]
  | cons hd tl ih =>
    obtain ⟨k₁, v₁⟩ := hd
    simp only [List.map_cons, List.mem_cons] at h
    push_neg at h
    have hne : ¬ k₁ = k := fun he => h.1 he.symm
    simp [setVal, hne, ih h.2]

theorem foldl_filterStep_eq (l : List (String × Nat)) (acc : List (String × Nat))
    (hnd : (l.map Prod.fst).Nodup)
    (hdisj : ∀ k ∈ acc.map Prod.fst, k ∉ l.map Prod.fst) :
    l.foldl filterStep acc
      = acc ++ l.filter (fun wc =>
          !(decide (0 < wc.1.length
              ∧ (1 : ℚ) / 5 < (countDigits wc.1 : ℚ) / (wc.1.length : ℚ)))) := by
  induction l generalizing acc with
  | nil => simp
  | cons wc l ih =>
    simp only [List.map_cons, List.nodup_cons] at hnd
    rw [List.foldl_cons]
    by_cases hp : 0 < wc.1.length ∧ (1 : ℚ) / 5 < (countDigits wc.1 : ℚ) / (wc.1.length : ℚ)
    · have hstep : filterStep acc wc = acc := by
        simp only [filterStep]
        rw [if_pos hp]
      have hb : (!(decide (0 < wc.1.length
          ∧ (1 : ℚ) / 5 < (countDigits wc.1 : ℚ) / (wc.1.length : ℚ)))) = false := by
        rw [Bool.not_eq_false', decide_eq_true_eq]
        exact hp
      rw [hstep, ih acc hnd.2 (fun k hk => fun hin => hdisj k hk (List.mem_cons_of_mem _ hin)),
        List.filter_cons]
      simp only [hb]
      rw [if_neg Bool.false_ne_true]
    · have hmem : wc.1 ∉ acc.map Prod.fst := by
        intro hin
        exact hdisj wc.1 hin (List.mem_cons_self _ _)
      have hstep : filterStep acc wc = acc ++ [wc] := by
        simp only [filterStep]
        rw [if_neg hp, setVal_append _ _ _ hmem]
      have hb : (!(decide (0 < wc.1.length
          ∧ (1 : ℚ) / 5 < (countDigits wc.1 : ℚ) / (wc.1.length : ℚ)))) = true := by
        rw [Bool.not_eq_true', decide_eq_false_iff_not]
        exact hp
      rw [hstep, ih (acc ++ [wc]) hnd.2 ?hd, List.filter_cons]
      on_goal 1 => simp only [hb]; rw [if_pos trivial]
      case hd =>
        intro k hk
        simp only [List.map_append, List.mem_append] at hk
        rcases hk with hk | hk
        · exact fun hin => hdisj k hk (List.mem_cons_of_mem _ hin)
        · simp only [List.map_cons, List.map_nil, List.mem_singleton] at hk
          subst hk
          exact hnd.1
      simp

/-- C7: `filterNumericWords` removes exactly the words whose fraction of
digit characters strictly exceeds 20 percent of the word's length, and
every retained word keeps its original count (equality with a plain filter
of the input map; the code's extra `word.length > 0` guard is immaterial,
an empty word having digit fraction `0/0 = 0`). -/
theorem filterNumericWords_exact (m : List (String × Nat))
    (hnd : (m.map Prod.fst).Nodup) :
    filterNumericWords m
      = m.filter (fun wc =>
          !(decide ((1 : ℚ) / 5 < (countDigits wc.1 : ℚ) / (wc.1.length : ℚ)))) := by
  have h := foldl_filterStep_eq m [] hnd (by simp)
  rw [filterNumericWords, h, List.nil_append]
  apply List.filter_congr
  intro wc _
  by_cases hlen : wc.1.length = 0
  · have hz : ((countDigits wc.1 : ℚ) / (wc.1.length : ℚ)) = 0 := by
      rw [hlen]
      simp
    simp [hlen, hz]
  · have h0 : 0 < wc.1.length := Nat.pos_of_ne_zero hlen
    simp [h0]

/-- C7 (witness): on `{"abc" ↦ 2, "a1" ↦ 3, "x23" ↦ 1}` the filter keeps
exactly `"abc"` (digit fractions 0, 1/2 and 2/3). -/
theorem filterNumericWords_exact_check :
    (([("abc", 2), ("a1", 3), ("x23", 1)] : List (String × Nat)).map Prod.fst).Nodup
    ∧ filterNumericWords [("abc", 2), ("a1", 3), ("x23", 1)]
        = ([("abc", 2), ("a1", 3), ("x23", 1)] : List (String × Nat)).filter (fun wc =>
            !(decide ((1 : ℚ) / 5 < (countDigits wc.1 : ℚ) / (wc.1.length : ℚ)))) :=
  ⟨by decide, filterNumericWords_exact [("abc", 2), ("a1", 3), ("x23", 1)] (by decide)⟩

/-! ### Count-map lemmas for the Overuse Ranker -/

theorem insertCount_eq_addCount (m : List (String × Nat)) (x : String) :
    insertCount m x = addCount m x 1 := by
  induction m with
  | nil => rfl
  | cons hd tl ih =>
    obtain ⟨k₁, v₁⟩ := hd
    by_cases h : k₁ = x
    · simp [insertCount, addCount, h]
    · simp [insertCount, addCount, h, ih]

theorem lookupCount_foldl_insertCount (l : List String) :
    ∀ (acc : List (String × Nat)) (q : String),
      lookupCount (l.foldl insertCount acc) q = lookupCount acc q + l.count q := by
  induction l with
  | nil => intro acc q; simp
  | cons x xs ih =>
    intro acc q
    rw [List.foldl_cons, ih, insertCount_eq_addCount, lookupCount_addCount, List.count_cons]
    by_cases h : x = q
    · subst h
      simp
      omega
    · have hb : (q == x) = false := beq_eq_false_iff_ne.2 (fun he => h he.symm)
      simp [h, hb]

/-- The tally of each distinct item is its number of occurrences. -/
theorem lookupCount_countItems (l : List String) (q : String) :
    lookupCount (countItems l) q = l.count q := by
  have h := lookupCount_foldl_insertCount l [] q
  simpa [countItems, lookupCount] using h

theorem keys_insertCount (m : List (String × Nat)) (x : String) :
    (insertCount m x).map Prod.fst
      = if x ∈ m.map Prod.fst then m.map Prod.fst else m.map Prod.fst ++ [x] := by
  induction m with
  | nil => simp [insertCount]
  | cons hd tl ih =>
    obtain ⟨k₁, v₁⟩ := hd
    by_cases h : k₁ = x
    · subst h
      simp [insertCount]
    · have hne : ¬ x = k₁ := fun he => h he.symm
      by_cases hx : x ∈ tl.map Prod.fst
      · simp [insertCount, h, ih, hx, hne]
      · simp [insertCount, h, ih, hx, hne]

theorem keys_foldl_insertCount_nodup (l : List String) :
    ∀ acc : List (String × Nat), ((acc.map Prod.fst).Nodup) →
      ((l.foldl insertCount acc).map Prod.fst).Nodup := by
  induction l with
  | nil => exact fun acc h => h
  | cons x xs ih =>
    intro acc hacc
    rw [List.foldl_cons]
    apply ih
    rw [keys_insertCount]
    split_ifs with hx
    · exact hacc
    · exact hacc.append (List.nodup_singleton x) (List.disjoint_singleton.2 hx)

/-- The keys of `countItems` never repeat. -/
theorem keys_countItems_nodup (l : List String) :
    ((countItems l).map Prod.fst).Nodup :=
  keys_foldl_insertCount_nodup l [] (by simp)

theorem mem_keys_foldl_insertCount (l : List String) :
    ∀ (acc : List (String × Nat)) (q : String),
      (q ∈ (l.foldl insertCount acc).map Prod.fst ↔ q ∈ acc.map Prod.fst ∨ q ∈ l) := by
  induction l with
  | nil => intro acc q; simp
  | cons x xs ih =>
    intro acc q
    rw [List.foldl_cons, ih, keys_insertCount]
    by_cases hx : x ∈ acc.map Prod.fst
    · rw [if_pos hx]
      simp only [List.mem_cons]
      constructor
      · rintro (h | h)
        · exact Or.inl h
        · exact Or.inr (Or.inr h)
      · rintro (h | rfl | h)
        · exact Or.inl h
        · exact Or.inl hx
        · exact Or.inr h
    · rw [if_neg hx]
      simp only [List.mem_append, List.mem_singleton, List.mem_cons, List.not_mem_nil,
        or_false, or_assoc]

/-- The keys of `countItems` are exactly the items. -/
theorem mem_keys_countItems (l : List String) (q : String) :
    q ∈ (countItems l).map Prod.fst ↔ q ∈ l := by
  have h := mem_keys_foldl_insertCount l [] q
  simpa [countItems] using h

theorem sum_map_foldl_insertCount (l : List String) :
    ∀ acc : List (String × Nat),
      (((l.foldl insertCount acc).map (fun e => e.2)).sum)
        = ((acc.map (fun e => e.2)).sum) + l.length := by
  induction l with
  | nil => intro acc; simp
  | cons x xs ih =>
    intro acc
    rw [List.foldl_cons, ih, insertCount_eq_addCount, sum_map_addCount, List.length_cons]
    omega

/-- The tallies of `countItems` total to the length of the input list. -/
theorem sum_map_countItems (l : List String) :
    ((countItems l).map (fun e => e.2)).sum = l.length := by
  have h := sum_map_foldl_insertCount l []
  simpa [countItems] using h

/-- In a map with no repeated keys, the stored value of a member binding is
what lookup returns at its key. -/
theorem lookupCount_of_mem {m : List (String × Nat)} (hnd : (m.map Prod.fst).Nodup)
    {p : String × Nat} (hp : p ∈ m) : lookupCount m p.1 = p.2 := by
  induction m with
  | nil => cases hp
  | cons hd tl ih =>
    simp only [List.map_cons, List.nodup_cons] at hnd
    rcases List.mem_cons.mp hp with rfl | hmem
    · simp [lookupCount]
    · have hne : ¬ hd.1 = p.1 := by
        intro he
        exact hnd.1 (he ▸ List.mem_map_of_mem Prod.fst hmem)
      obtain ⟨k₁, v₁⟩ := hd
      simp only [lookupCount, if_neg hne]
      exact ih hnd.2 hmem

/-! ### The `minHuman` loop -/

/-- Invariant of the `minHuman` fold: starting from a positive (or absent)
candidate, the fold ends `none` exactly when nothing positive was seen, and
otherwise ends at a positive value that is a lower bound of all positive
values seen and of the starting candidate, and is either the starting
candidate or one of the values seen. -/
theorem minStep_foldl_spec (m : List (String × ℚ)) :
    ∀ acc : Option ℚ, (∀ a, acc = some a → 0 < a) →
      ((m.foldl minStep acc = none → (acc = none ∧ ∀ v ∈ m.map (fun e => e.2), v ≤ 0))
        ∧ (∀ mh, m.foldl minStep acc = some mh →
            0 < mh ∧ (acc = some mh ∨ mh ∈ m.map (fun e => e.2))
              ∧ (∀ v ∈ m.map (fun e => e.2), 0 < v → mh ≤ v)
              ∧ (∀ a, acc = some a → mh ≤ a))) := by
  induction m with
  | nil =>
    intro acc hacc
    simp only [List.foldl_nil]
    refine ⟨fun h => ⟨h, by simp⟩, fun mh h => ?_⟩
    refine ⟨hacc mh h, Or.inl h, by simp, fun a ha => ?_⟩
    rw [h] at ha
    exact le_of_eq (Option.some_injective ℚ ha)
  | cons kv m ih =>
    intro acc hacc
    rw [List.foldl_cons]
    have hF1 : ∀ a, minStep acc kv = some a → (acc = some a ∨ a = kv.2) := by
      intro a ha
      cases acc with
      | none =>
        by_cases hv : 0 < kv.2
        · simp only [minStep, if_pos hv, Option.some.injEq] at ha
          exact Or.inr ha.symm
        · simp only [minStep, if_neg hv] at ha
          simp at ha
      | some mh0 =>
        by_cases hv : 0 < kv.2 ∧ kv.2 < mh0
        · simp only [minStep, if_pos hv, Option.some.injEq] at ha
          exact Or.inr ha.symm
        · simp only [minStep, if_neg hv, Option.some.injEq] at ha
          exact Or.inl (by rw [ha])
    have hacc₁ : ∀ a, minStep acc kv = some a → 0 < a := by
      intro a ha
      cases acc with
      | none =>
        by_cases hv : 0 < kv.2
        · simp only [minStep, if_pos hv, Option.some.injEq] at ha
          exact ha ▸ hv
        · simp only [minStep, if_neg hv] at ha
          simp at ha
      | some mh0 =>
        by_cases hv : 0 < kv.2 ∧ kv.2 < mh0
        · simp only [minStep, if_pos hv, Option.some.injEq] at ha
          exact ha ▸ hv.1
        · simp only [minStep, if_neg hv, Option.some.injEq] at ha
          exact ha ▸ hacc mh0 rfl
    have hF3 : minStep acc kv = none → (acc = none ∧ kv.2 ≤ 0) := by
      intro ha
      cases acc with
      | none =>
        by_cases hv : 0 < kv.2
        · simp only [minStep, if_pos hv] at ha
          simp at ha
        · exact ⟨rfl, not_lt.mp hv⟩
      | some mh0 =>
        by_cases hv : 0 < kv.2 ∧ kv.2 < mh0
        · simp only [minStep, if_pos hv] at ha
          simp at ha
        · simp only [minStep, if_neg hv] at ha
          simp at ha
    have hF2 : 0 < kv.2 → ∀ a, minStep acc kv = some a → a ≤ kv.2 := by
      intro hv a ha
      cases acc with
      | none =>
        simp only [minStep, if_pos hv, Option.some.injEq] at ha
        exact le_of_eq ha.symm
      | some mh0 =>
        by_cases hv2 : 0 < kv.2 ∧ kv.2 < mh0
        · simp only [minStep, if_pos hv2, Option.some.injEq] at ha
          exact le_of_eq ha.symm
        · simp only [minStep, if_neg hv2, Option.some.injEq] at ha
          have : ¬ kv.2 < mh0 := fun hlt => hv2 ⟨hv, hlt⟩
          exact ha ▸ not_lt.mp this
    have hF4 : ∀ a₀, acc = some a₀ → ∀ a, minStep acc kv = some a → a ≤ a₀ := by
      intro a₀ h0 a ha
      subst h0
      by_cases hv : 0 < kv.2 ∧ kv.2 < a₀
      · simp only [minStep, if_pos hv, Option.some.injEq] at ha
        exact ha ▸ le_of_lt hv.2
      · simp only [minStep, if_neg hv, Option.some.injEq] at ha
        exact le_of_eq ha.symm
    obtain ⟨ihn, ihs⟩ := ih (minStep acc kv) hacc₁
    constructor
    · intro h
      obtain ⟨h1, h2⟩ := ihn h
      obtain ⟨h3, h4⟩ := hF3 h1
      refine ⟨h3, ?_⟩
      simp only [List.map_cons, List.mem_cons]
      rintro v (rfl | hv)
      · exact h4
      · exact h2 v hv
    · intro mh h
      obtain ⟨hpos, hor, hle, hlow⟩ := ihs mh h
      refine ⟨hpos, ?_, ?_, ?_⟩
      · rcases hor with h1 | h1
        · rcases hF1 mh h1 with h2 | h2
          · exact Or.inl h2
          · exact Or.inr (by simp [h2])
        · exact Or.inr (by simp [h1])
      · simp only [List.map_cons, List.mem_cons]
        rintro v (rfl | hv) hvpos
        · cases hstep : minStep acc kv with
          | none => exact absurd (hF3 hstep).2 (not_le.mpr hvpos)
          | some a => exact le_trans (hlow a hstep) (hF2 hvpos a hstep)
        · exact hle v hv hvpos
      · intro a₀ h0
        cases hstep : minStep acc kv with
        | none =>
          rw [(hF3 hstep).1] at h0
          simp at h0
        | some a => exact le_trans (hlow a hstep) (hF4 a₀ h0 a hstep)

/-- When the baseline map has a positive value, `minHumanOf` is its
smallest positive value: positive, attained, and a lower bound of every
positive value of the map. -/
theorem minHumanOf_spec (m : List (String × ℚ)) (h2 : ∃ e ∈ m, 0 < e.2) :
    minHumanOf m ∈ m.map (fun e => e.2) ∧ 0 < minHumanOf m
    ∧ ∀ v ∈ m.map (fun e => e.2), 0 < v → minHumanOf m ≤ v := by
  obtain ⟨e, he, hpos⟩ := h2
  have hspec := minStep_foldl_spec m none (by simp)
  cases hfold : m.foldl minStep none with
  | none =>
    obtain ⟨-, hall⟩ := hspec.1 hfold
    exact absurd (hall e.2 (List.mem_map_of_mem _ he)) (not_le.mpr hpos)
  | some mh =>
    obtain ⟨h1, hor, h3, -⟩ := hspec.2 mh hfold
    have hv : minHumanOf m = mh := by
      rw [minHumanOf, hfold]
    rcases hor with h | h
    · simp at h
    · rw [hv]
      exact ⟨h, h1, h3⟩

/-! ### Claim theorems: the Overuse Ranker's absent-n-gram floor -/

/-- C4 (counterexample): with document n-grams `["a b"]` and baseline
`{"c d" ↦ 1}`, the n-gram `"a b"` is absent from the baseline and the
smallest positive baseline proportion is `1`, so the claim predicts the
quotient `observed / epsilon = (1/1) / 1 = 1`; the code divides by
`epsilon + 1e-12` instead, so the returned quotient is `1 / (1 + 1e-12)`,
and no row with quotient `1` is returned. -/
theorem rank_absent_claim_cex :
    ("a b", (1 : ℚ), 1) ∉ rankOveruseWithCounts ["a b"] [("c d", (1 : ℚ))] 40 := by
  have hci : countItems ["a b"] = [("a b", 1)] := rfl
  have hmin : minHumanOf [("c d", (1 : ℚ))] = 1 := by
    have h01 : (0 : ℚ) < 1 := one_pos
    simp [minHumanOf, minStep, h01]
  have hlk : List.lookup "a b" [("c d", (1 : ℚ))] = none := by decide
  have hrows : rankRows ["a b"] [("c d", (1 : ℚ))] = [("a b", 1 / (1 + tinyEps), 1)] := by
    simp only [rankRows, hci, hmin, List.map_cons, List.map_nil, List.sum_cons, List.sum_nil,
      hlk]
    norm_num
  have hout : rankOveruseWithCounts ["a b"] [("c d", (1 : ℚ))] 40
      = [("a b", 1 / (1 + tinyEps), 1)] := by
    simp only [rankOveruseWithCounts, hrows]
    simp [List.insertionSort]
  rw [hout]
  simp only [List.mem_singleton, Prod.mk.injEq]
  intro h
  have h1 : (1 : ℚ) = 1 / (1 + tinyEps) := h.2.1
  rw [tinyEps] at h1
  norm_num at h1

/-- C4 (amended): for a non-empty n-gram list and a baseline containing a
positive value, an n-gram of the document that is absent from the baseline
is assigned the finite quotient `observedProportion / (epsilon + 1e-12)`,
where `observedProportion` is its count over the total n-gram count and
`epsilon` is the smallest positive baseline proportion present (the code
adds its usual smoothing constant `1e-12` to the substituted floor, so the
claimed `observedProportion / epsilon` is off by that constant). -/
theorem rank_absent_ngram_quotient (ngrams : List String) (humanFreqMap : List (String × ℚ))
    (ng : String)
    (hne : ngrams ≠ [])
    (hpos : ∃ e ∈ humanFreqMap, 0 < e.2)
    (hng : ng ∈ ngrams)
    (habs : humanFreqMap.lookup ng = none) :
    minHumanOf humanFreqMap ∈ humanFreqMap.map (fun e => e.2)
    ∧ 0 < minHumanOf humanFreqMap
    ∧ (∀ v ∈ humanFreqMap.map (fun e => e.2), 0 < v → minHumanOf humanFreqMap ≤ v)
    ∧ 0 < minHumanOf humanFreqMap + tinyEps
    ∧ (ng, ((ngrams.count ng : ℚ) / (ngrams.length : ℚ))
          / (minHumanOf humanFreqMap + tinyEps), ngrams.count ng)
        ∈ rankRows ngrams humanFreqMap := by
  obtain ⟨hmem, hpos', hmin⟩ := minHumanOf_spec humanFreqMap hpos
  have heps : (0 : ℚ) < tinyEps := by
    rw [tinyEps]
    norm_num
  refine ⟨hmem, hpos', hmin, add_pos hpos' heps, ?_⟩
  have hkey : ng ∈ (countItems ngrams).map Prod.fst := (mem_keys_countItems ngrams ng).mpr hng
  obtain ⟨p, hp, hp1⟩ := List.mem_map.mp hkey
  have hp2 : p.2 = ngrams.count ng := by
    have h := lookupCount_of_mem (keys_countItems_nodup ngrams) hp
    rw [hp1, lookupCount_countItems] at h
    exact h.symm
  have hs : ((countItems ngrams).map (fun e => e.2)).sum = ngrams.length :=
    sum_map_countItems ngrams
  have hlen : ¬ ngrams.length = 0 := fun h => hne (List.eq_nil_of_length_eq_zero h)
  simp only [rankRows]
  refine List.mem_map.mpr ⟨p, hp, ?_⟩
  simp only [hp1, hp2, hs, habs, hlen, if_false]

/-- C4 (witness): the amended quotient on the concrete inputs of the
counterexample — n-grams `["a b"]`, baseline `{"c d" ↦ 1}`. -/
theorem rank_absent_ngram_quotient_check :
    ((["a b"] : List String) ≠ []
      ∧ (∃ e ∈ [("c d", (1 : ℚ))], 0 < e.2)
      ∧ "a b" ∈ (["a b"] : List String)
      ∧ List.lookup "a b" [("c d", (1 : ℚ))] = none)
    ∧ (minHumanOf [("c d", (1 : ℚ))] ∈ ([("c d", (1 : ℚ))]).map (fun e => e.2)
      ∧ 0 < minHumanOf [("c d", (1 : ℚ))]
      ∧ (∀ v ∈ ([("c d", (1 : ℚ))]).map (fun e => e.2), 0 < v →
          minHumanOf [("c d", (1 : ℚ))] ≤ v)
      ∧ 0 < minHumanOf [("c d", (1 : ℚ))] + tinyEps
      ∧ ("a b", (((["a b"] : List String).count "a b" : ℚ) / ((["a b"] : List String).length : ℚ))
            / (minHumanOf [("c d", (1 : ℚ))] + tinyEps), (["a b"] : List String).count "a b")
          ∈ rankRows ["a b"] [("c d", (1 : ℚ))]) :=
  have hpos : ∃ e ∈ [("c d", (1 : ℚ))], 0 < e.2 := ⟨("c d", 1), by simp, one_pos⟩
  ⟨⟨by simp, hpos, by simp, by decide⟩,
    rank_absent_ngram_quotient ["a b"] [("c d", (1 : ℚ))] "a b"
      (by simp) hpos (by simp) (by decide)⟩

/-! ### Claim theorems: top-K, descending sort, stability -/

theorem keys_rankRows (ngrams : List String) (humanFreqMap : List (String × ℚ)) :
    (rankRows ngrams humanFreqMap).map Prod.fst = (countItems ngrams).map Prod.fst := by
  simp only [rankRows, List.map_map]
  rfl

/-- The keys of `countItems` list the distinct items in first-encounter
order. -/
theorem keys_countItems_eq_firstOccList (l : List String) :
    (countItems l).map Prod.fst = firstOccList l := by
  suffices h : ∀ (l : List String) (acc : List (String × Nat)),
      (l.foldl insertCount acc).map Prod.fst
        = l.foldl (fun ks x => if ks.contains x then ks else ks ++ [x]) (acc.map Prod.fst) by
    simpa [countItems, firstOccList] using h l []
  intro l
  induction l with
  | nil => intro acc; simp
  | cons x xs ih =>
    intro acc
    rw [List.foldl_cons, List.foldl_cons, ih, keys_insertCount]
    congr 1
    by_cases hx : x ∈ acc.map Prod.fst
    · simp [hx]
    · simp [hx]

/-- Stability of the embedded sort: filtering the sorted rows at one
quotient value gives exactly the equally-quotiented rows in their original
order. -/
theorem insertionSort_filter_fixed (rows : List (String × ℚ × Nat)) (q : ℚ) :
    (List.insertionSort (fun a b => b.2.1 ≤ a.2.1) rows).filter
        (fun row => decide (row.2.1 = q))
      = rows.filter (fun row => decide (row.2.1 = q)) := by
  have hperm := (List.perm_insertionSort (fun a b : String × ℚ × Nat => b.2.1 ≤ a.2.1)
    rows).filter (fun row => decide (row.2.1 = q))
  have hpair : (rows.filter (fun row => decide (row.2.1 = q))).Pairwise
      (fun a b => b.2.1 ≤ a.2.1) := by
    apply List.pairwise_of_forall_mem_list
    intro a ha b hb
    have ha2 : a.2.1 = q := of_decide_eq_true (List.mem_filter.mp ha).2
    have hb2 : b.2.1 = q := of_decide_eq_true (List.mem_filter.mp hb).2
    rw [ha2, hb2]
  have hsub : List.Sublist (rows.filter (fun row => decide (row.2.1 = q)))
      (List.insertionSort (fun a b => b.2.1 ≤ a.2.1) rows) :=
    List.sublist_insertionSort hpair (List.filter_sublist rows)
  have hsub2 : List.Sublist (rows.filter (fun row => decide (row.2.1 = q)))
      ((List.insertionSort (fun a b => b.2.1 ≤ a.2.1) rows).filter
        (fun row => decide (row.2.1 = q))) := by
    have h := hsub.filter (fun row => decide (row.2.1 = q))
    simp only [List.filter_filter, Bool.and_self] at h
    exact h
  exact (hsub2.eq_of_length_le (le_of_eq hperm.length_eq)).symm

/-- C5: `rankOveruseWithCounts` returns at most `topK` rows (`topK`
defaults to 40), sorted non-increasingly by overuse quotient, and rows of
equal quotient keep the first-encounter order of their n-grams (JS's
stable sort, no other tie-break). -/
theorem rank_topK_sorted_stable (ngrams : List String) (humanFreqMap : List (String × ℚ))
    (topK : Nat) :
    (rankOveruseWithCounts ngrams humanFreqMap topK).length ≤ topK
    ∧ rankOveruseWithCounts ngrams humanFreqMap
        = rankOveruseWithCounts ngrams humanFreqMap 40
    ∧ List.Pairwise (fun a b => b.2.1 ≤ a.2.1) (rankOveruseWithCounts ngrams humanFreqMap topK)
    ∧ ∀ q : ℚ, List.Sublist
        (((rankOveruseWithCounts ngrams humanFreqMap topK).filter
            (fun row => decide (row.2.1 = q))).map Prod.fst)
        (firstOccList ngrams) := by
  haveI htot : IsTotal (String × ℚ × Nat) (fun a b => b.2.1 ≤ a.2.1) :=
    ⟨fun a b => le_total b.2.1 a.2.1⟩
  haveI htrans : IsTrans (String × ℚ × Nat) (fun a b => b.2.1 ≤ a.2.1) :=
    ⟨fun _ _ _ h1 h2 => le_trans h2 h1⟩
  refine ⟨?_, rfl, ?_, ?_⟩
  · rw [rankOveruseWithCounts]
    split
    · simp
    · exact List.length_take_le topK _
  · rw [rankOveruseWithCounts]
    split
    · simp
    · exact List.Pairwise.sublist (List.take_sublist _ _)
        (List.sorted_insertionSort (fun a b : String × ℚ × Nat => b.2.1 ≤ a.2.1)
          (rankRows ngrams humanFreqMap))
  · intro q
    rw [rankOveruseWithCounts]
    split
    · simp
    · have h1 : List.Sublist
          (((List.insertionSort (fun a b => b.2.1 ≤ a.2.1)
              (rankRows ngrams humanFreqMap)).take topK).filter
            (fun row => decide (row.2.1 = q)))
          ((List.insertionSort (fun a b => b.2.1 ≤ a.2.1)
              (rankRows ngrams humanFreqMap)).filter
            (fun row => decide (row.2.1 = q))) :=
        (List.take_sublist _ _).filter _
      rw [insertionSort_filter_fixed] at h1
      have h2 := (h1.trans (List.filter_sublist _)).map Prod.fst
      rwa [keys_rankRows, keys_countItems_eq_firstOccList] at h2

/-! ### Claim theorems: baseline-profile normalization -/

theorem sum_map_div (l : List (String × ℚ)) (c : ℚ) :
    (l.map (fun e => e.2 / c)).sum = (l.map (fun e => e.2)).sum / c := by
  induction l with
  | nil => simp
  | cons hd tl ih => simp [ih, add_div]

theorem foldl_normStep_eq (total : ℚ) (l : List (String × ℚ)) :
    ∀ acc : List (String × ℚ),
      (∀ e ∈ l, 2 ≤ (azRuns e.1).length) →
      (l.map (fun e => String.intercalate " " (azRuns e.1))).Nodup →
      (∀ k ∈ acc.map Prod.fst, k ∉ l.map (fun e => String.intercalate " " (azRuns e.1))) →
      l.foldl (normStep total) acc
        = acc ++ l.map (fun e => (String.intercalate " " (azRuns e.1), e.2 / total)) := by
  induction l with
  | nil => intro acc _ _ _; simp
  | cons it l ih =>
    intro acc htoks hnd hdisj
    rw [List.foldl_cons]
    have h2 : ¬ (azRuns it.1).length < 2 :=
      not_lt.mpr (htoks it (List.mem_cons_self _ _))
    have hkey : String.intercalate " " (azRuns it.1) ∉ acc.map Prod.fst := by
      intro hin
      refine hdisj _ hin ?_
      simp only [List.map_cons]
      exact List.mem_cons_self _ _
    have hstep : normStep total acc it
        = acc ++ [(String.intercalate " " (azRuns it.1), it.2 / total)] := by
      simp only [normStep]
      rw [if_neg h2, setVal_append _ _ _ hkey]
    simp only [List.map_cons, List.nodup_cons] at hnd
    rw [hstep, ih (acc ++ [(String.intercalate " " (azRuns it.1), it.2 / total)])
      (fun e he => htoks e (List.mem_cons_of_mem _ he)) hnd.2 ?hdd, List.map_cons]
    case hdd =>
      intro k hk
      simp only [List.map_append, List.mem_append, List.map_cons, List.map_nil,
        List.mem_singleton] at hk
      rcases hk with hk | hk
      · exact fun hin => hdisj k hk (by simp only [List.map_cons]; exact List.mem_cons_of_mem _ hin)
      · subst hk
        exact hnd.1
    simp

/-- C8 (counterexample): the baseline list
`[{ngram: "a", frequency: 1}, {ngram: "b c", frequency: 1}, {ngram: "d e", frequency: 0}]`
has positive total frequency 2, yet the loaded map is
`{"b c" ↦ 1/2, "d e" ↦ 0}`: the single-token record `"a"` is skipped but
still counted in the total, so the values sum to 1/2, not 1, and the
zero-frequency record stores the value 0, which is not in `(0, 1]`. -/
theorem normProfile_claim_cex :
    0 < (([("a", (1 : ℚ)), ("b c", 1), ("d e", 0)]).map (fun it => it.2)).sum
    ∧ ¬ ((∀ v ∈ (normProfile [("a", (1 : ℚ)), ("b c", 1), ("d e", 0)]).map (fun e => e.2),
            0 < v ∧ v ≤ 1)
        ∧ ((normProfile [("a", (1 : ℚ)), ("b c", 1), ("d e", 0)]).map (fun e => e.2)).sum
            = 1) := by
  have ha : azRuns "a" = ["a"] := by decide
  have hb : azRuns "b c" = ["b", "c"] := by decide
  have hd : azRuns "d e" = ["d", "e"] := by decide
  have hib : String.intercalate " " ["b", "c"] = "b c" := rfl
  have hid : String.intercalate " " ["d", "e"] = "d e" := rfl
  have heval : normProfile [("a", (1 : ℚ)), ("b c", 1), ("d e", 0)]
      = [("b c", 1 / 2), ("d e", 0)] := by
    simp only [normProfile, List.map_cons, List.map_nil, List.sum_cons, List.sum_nil]
    rw [if_neg (by norm_num)]
    simp only [List.foldl_cons, List.foldl_nil, normStep, ha, hb, hd, hib, hid]
    norm_num [setVal]
    decide
  constructor
  · simp
  · rw [heval]
    intro hcl
    have hsum := hcl.2
    simp only [List.map_cons, List.map_nil, List.sum_cons, List.sum_nil] at hsum
    norm_num at hsum

/-- C8 (amended): when every record of the baseline list has positive
frequency, every record's n-gram yields at least two alphabetic tokens
(so no record is skipped after being counted in the total), and the
normalized keys are pairwise distinct (so no entry overwrites another),
the loaded map's values all lie in `(0, 1]` and sum to 1. Without these
provisos the code violates the claim: skipped or zero-frequency records
keep their share of the total, see the counterexample. -/
theorem normProfile_normalized (list : List (String × ℚ))
    (hne : list ≠ [])
    (hpos : ∀ e ∈ list, 0 < e.2)
    (htoks : ∀ e ∈ list, 2 ≤ (azRuns e.1).length)
    (hkeys : (list.map (fun e => String.intercalate " " (azRuns e.1))).Nodup) :
    (∀ v ∈ (normProfile list).map (fun e => e.2), 0 < v ∧ v ≤ 1)
    ∧ ((normProfile list).map (fun e => e.2)).sum = 1 := by
  have hmappos : ∀ x ∈ list.map (fun it => it.2), 0 < x := by
    intro x hx
    obtain ⟨e, he, hev⟩ := List.mem_map.mp hx
    exact hev ▸ hpos e he
  have htot : 0 < (list.map (fun it => it.2)).sum :=
    List.sum_pos _ hmappos (fun h => hne (by simpa using List.map_eq_nil_iff.mp h))
  have hguard : ¬ ((list.map (fun it => it.2)).sum ≤ 0) := not_le.mpr htot
  have heq : normProfile list
      = list.map (fun e => (String.intercalate " " (azRuns e.1),
          e.2 / (list.map (fun it => it.2)).sum)) := by
    rw [normProfile]
    simp only [hguard, if_false]
    rw [foldl_normStep_eq _ list [] htoks hkeys (by simp), List.nil_append]
  rw [heq, List.map_map]
  have hcomp : ((fun e : String × ℚ => e.2) ∘
        (fun e : String × ℚ => (String.intercalate " " (azRuns e.1),
          e.2 / (list.map (fun it => it.2)).sum)))
      = fun e : String × ℚ => e.2 / (list.map (fun it => it.2)).sum := rfl
  rw [hcomp]
  constructor
  · intro v hv
    obtain ⟨e, he, hev⟩ := List.mem_map.mp hv
    constructor
    · exact hev ▸ div_pos (hpos e he) htot
    · rw [← hev, div_le_one htot]
      exact List.single_le_sum (fun x hx => le_of_lt (hmappos x hx)) _
        (List.mem_map_of_mem _ he)
  · rw [sum_map_div, div_self (ne_of_gt htot)]

/-- C8 (witness): the amended normalization on the concrete baseline list
`[{ngram: "a b", frequency: 1}, {ngram: "c d", frequency: 3}]`. -/
theorem normProfile_normalized_check :
    (([("a b", (1 : ℚ)), ("c d", 3)] : List (String × ℚ)) ≠ []
      ∧ (∀ e ∈ ([("a b", (1 : ℚ)), ("c d", 3)] : List (String × ℚ)), 0 < e.2)
      ∧ (∀ e ∈ ([("a b", (1 : ℚ)), ("c d", 3)] : List (String × ℚ)),
          2 ≤ (azRuns e.1).length)
      ∧ (([("a b", (1 : ℚ)), ("c d", 3)] : List (String × ℚ)).map
          (fun e => String.intercalate " " (azRuns e.1))).Nodup)
    ∧ ((∀ v ∈ (normProfile [("a b", (1 : ℚ)), ("c d", 3)]).map (fun e => e.2), 0 < v ∧ v ≤ 1)
      ∧ ((normProfile [("a b", (1 : ℚ)), ("c d", 3)]).map (fun e => e.2)).sum = 1) :=
  have hpos : ∀ e ∈ ([("a b", (1 : ℚ)), ("c d", 3)] : List (String × ℚ)), 0 < e.2 := by
    intro e he
    rcases List.mem_cons.mp he with rfl | he2
    · norm_num
    · rcases List.mem_cons.mp he2 with rfl | he3
      · norm_num
      · cases he3
  ⟨⟨by simp, hpos, by decide, by decide⟩,
    normProfile_normalized [("a b", (1 : ℚ)), ("c d", 3)] (by simp) hpos
      (by decide) (by decide)⟩

end SlopScore
